import Mathlib

/-!
# Verification of the dashboard_program data pipeline

Shallow embedding of the data-processing core of the repository
(`report.py`, `dash_helpers.py`, `dashboard.py`) together with theorems
settling the specification claims.

Modelling conventions:
* A pandas `DataFrame` of claim records is a `List ClaimRecord`; a single
  column is a `List` of its values.  The monetary columns are modelled as
  `Int` (only comparisons with `0` matter to the code under scrutiny).
* `Series.sort_values` / `sorted` are modelled by a comparison sort
  (`sortBy` below, a stable insertion sort).  Python's `sorted` is stable,
  so `sortBy` is extensionally the function computed by the source; pandas
  `sort_values` only guarantees some ascending order, and the theorems
  about it use only order/permutation facts that hold for every such sort.
* Python `//` on integers is `Int.fdiv` (floor division); numpy
  `astype(int)` is `Int.tdiv` (truncation toward zero).
* `x / 365.25` on a day count is modelled by exact rational arithmetic
  (`x * 4 / 1461`): `365.25` is exactly representable and for every
  realistic day count the float quotient truncates to the same integer as
  the exact quotient.  Likewise `total * 0.01` in the pie-chart filter is
  modelled as the exact `total / 100`, whose Python `round` (half to even)
  agrees with the float computation for every realistic total.
* Fallible code (`KeyError`, the empty-minimum case) returns `Option`.
-/

/-- One row of the claim table.  Only the columns examined by the
error-filtering code are carried; `elszamoltErtek` is the accounted amount
("Elszámolt érték"), `jelentettErtek` the reported amount
("Jelentett érték") and `hibauzenetek` the error-message text
("Hibaüzenetek"). -/
structure ClaimRecord where
  elszamoltErtek : Int
  jelentettErtek : Int
  hibauzenetek : String
  deriving DecidableEq, Repr

/-- Stable insertion of `x` into `l`: `x` is placed before the first
element `y` with `le x y`. -/
def insertBy (le : α → α → Bool) (x : α) : List α → List α
  | [] => [x]
  | y :: ys => if le x y then x :: y :: ys else y :: insertBy le x ys

/-- Stable comparison sort; models Python's stable `sorted` and is one of
the ascending orders pandas `sort_values` may produce. -/
def sortBy (le : α → α → Bool) : List α → List α
  | [] => []
  | x :: xs => insertBy le x (sortBy le xs)

theorem insertBy_perm (le : α → α → Bool) (x : α) (l : List α) :
    (insertBy le x l).Perm (x :: l) := by
  induction l with
  | nil => exact List.Perm.refl _
  | cons y ys ih =>
    simp only [insertBy]
    by_cases h : le x y = true
    · simp [h]
    · simp only [h]
      exact (List.Perm.cons y ih).trans (List.Perm.swap x y ys)

theorem sortBy_perm (le : α → α → Bool) (l : List α) :
    (sortBy le l).Perm l := by
  induction l with
  | nil => exact List.Perm.refl _
  | cons x xs ih =>
    exact (insertBy_perm le x (sortBy le xs)).trans (List.Perm.cons x ih)

theorem mem_insertBy {le : α → α → Bool} {x z : α} {l : List α} :
    z ∈ insertBy le x l ↔ z = x ∨ z ∈ l := by
  rw [(insertBy_perm le x l).mem_iff, List.mem_cons]

theorem insertBy_pairwise {le : α → α → Bool}
    (htot : ∀ a b, le a b = true ∨ le b a = true)
    (htrans : ∀ a b c, le a b = true → le b c = true → le a c = true)
    {x : α} {l : List α} (hl : l.Pairwise (fun a b => le a b = true)) :
    (insertBy le x l).Pairwise (fun a b => le a b = true) := by
  induction l with
  | nil => simp [insertBy]
  | cons y ys ih =>
    rcases List.pairwise_cons.mp hl with ⟨hy, hys⟩
    simp only [insertBy]
    by_cases h : le x y = true
    · simp only [h, if_true]
      refine List.pairwise_cons.mpr ⟨?_, hl⟩
      intro z hz
      rcases List.mem_cons.mp hz with rfl | hz
      · exact h
      · exact htrans x y z h (hy z hz)
    · simp only [h, if_false]
      refine List.pairwise_cons.mpr ⟨?_, ih hys⟩
      intro z hz
      rcases mem_insertBy.mp hz with rfl | hz
      · rcases htot z y with hzy | hyz
        · exact absurd hzy h
        · exact hyz
      · exact hy z hz

theorem sortBy_pairwise {le : α → α → Bool}
    (htot : ∀ a b, le a b = true ∨ le b a = true)
    (htrans : ∀ a b c, le a b = true → le b c = true → le a c = true)
    (l : List α) :
    (sortBy le l).Pairwise (fun a b => le a b = true) := by
  induction l with
  | nil => simp [sortBy]
  | cons x xs ih => exact insertBy_pairwise htot htrans ih

namespace Report

/-- `report.py` `get_error_df`: keep the rows whose accounted amount is 0
and whose reported amount is not 0, then sort by the error-message
column. -/
def get_error_df (ef_df : List ClaimRecord) : List ClaimRecord :=
  sortBy (fun a b => decide (a.hibauzenetek ≤ b.hibauzenetek))
    (ef_df.filter (fun r => r.elszamoltErtek == 0 && !(r.jelentettErtek == 0)))

/-- C1: `get_error_df` returns exactly the rows with accounted amount 0
and reported amount not 0 (as a permutation of that filter), sorted
ascending by the error-message column, and when no row satisfies the
predicate the result is the empty table. -/
theorem get_error_df_spec (df : List ClaimRecord) :
    (get_error_df df).Perm
      (df.filter (fun r => decide (r.elszamoltErtek = 0 ∧ r.jelentettErtek ≠ 0))) ∧
    (get_error_df df).Pairwise (fun a b => a.hibauzenetek ≤ b.hibauzenetek) ∧
    ((∀ r ∈ df, ¬(r.elszamoltErtek = 0 ∧ r.jelentettErtek ≠ 0)) → get_error_df df = []) := by
  have hfe : df.filter (fun r => r.elszamoltErtek == 0 && !(r.jelentettErtek == 0)) =
      df.filter (fun r => decide (r.elszamoltErtek = 0 ∧ r.jelentettErtek ≠ 0)) := by
    refine List.filter_congr ?_
    intro r _
    by_cases h1 : r.elszamoltErtek = 0 <;> by_cases h2 : r.jelentettErtek = 0 <;>
      simp [h1, h2]
  refine ⟨?_, ?_, ?_⟩
  · rw [get_error_df, hfe]
    exact sortBy_perm _ _
  · have := @sortBy_pairwise ClaimRecord
      (fun a b : ClaimRecord => decide (a.hibauzenetek ≤ b.hibauzenetek))
      (fun a b => by
        rcases le_total a.hibauzenetek b.hibauzenetek with h | h
        · exact Or.inl (decide_eq_true h)
        · exact Or.inr (decide_eq_true h))
      (fun a b c hab hbc =>
        decide_eq_true (le_trans (of_decide_eq_true hab) (of_decide_eq_true hbc)))
      (df.filter (fun r => r.elszamoltErtek == 0 && !(r.jelentettErtek == 0)))
    exact this.imp (fun h => of_decide_eq_true h)
  · intro hall
    rw [get_error_df, hfe]
    have : df.filter (fun r => decide (r.elszamoltErtek = 0 ∧ r.jelentettErtek ≠ 0)) = [] := by
      rw [List.filter_eq_nil_iff]
      intro r hr
      simpa using hall r hr
    rw [this]
    rfl

/-- Witness for C1 at a concrete table in which no row satisfies the error
predicate: the result is empty and no error occurs. -/
theorem get_error_df_spec_witness :
    get_error_df [⟨100, 100, "a"⟩, ⟨0, 0, "b"⟩] = [] :=
  (get_error_df_spec [⟨100, 100, "a"⟩, ⟨0, 0, "b"⟩]).2.2 (by decide)

end Report

namespace Dashboard

/-- `dashboard.py` `get_error_df`: unlike the `report.py` variant, the
filter tests only that the accounted amount is 0 (the reported-amount
condition is absent), then sorts by the error-message column. -/
def get_error_df (ef_df : List ClaimRecord) : List ClaimRecord :=
  sortBy (fun a b => decide (a.hibauzenetek ≤ b.hibauzenetek))
    (ef_df.filter (fun r => r.elszamoltErtek == 0))

end Dashboard

/-- C9: the `dashboard.py` variant of `get_error_df` filters only on
accounted amount = 0, so the two-condition `report.py` result is always a
subset of it, and on a table containing a row with accounted amount 0 and
reported amount 0 the two variants return different row sets. -/
theorem get_error_df_variants_spec :
    (∀ df : List ClaimRecord, (Dashboard.get_error_df df).Perm
      (df.filter (fun r => decide (r.elszamoltErtek = 0)))) ∧
    (∀ (df : List ClaimRecord) (r : ClaimRecord),
      r ∈ Report.get_error_df df → r ∈ Dashboard.get_error_df df) ∧
    Report.get_error_df [⟨0, 0, "m"⟩] = [] ∧
    Dashboard.get_error_df [⟨0, 0, "m"⟩] = [⟨0, 0, "m"⟩] := by
  have hperm : ∀ df : List ClaimRecord, (Dashboard.get_error_df df).Perm
      (df.filter (fun r => decide (r.elszamoltErtek = 0))) := by
    intro df
    have hfe : df.filter (fun r => r.elszamoltErtek == 0) =
        df.filter (fun r => decide (r.elszamoltErtek = 0)) := by
      refine List.filter_congr ?_
      intro r _
      by_cases h : r.elszamoltErtek = 0 <;> simp [h]
    rw [Dashboard.get_error_df, hfe]
    exact sortBy_perm _ _
  refine ⟨hperm, ?_, by decide, by decide⟩
  intro df r hr
  have h1 := ((Report.get_error_df_spec df).1.mem_iff).mp hr
  rcases List.mem_filter.mp h1 with ⟨hmem, hpred⟩
  have hpred' : r.elszamoltErtek = 0 := (of_decide_eq_true hpred).1
  exact ((hperm df).mem_iff).mpr
    (List.mem_filter.mpr ⟨hmem, decide_eq_true hpred'⟩)

/-- Witness for C9 at a concrete table with one genuine error row: the
row kept by the two-condition filter is also kept by the single-condition
filter. -/
theorem get_error_df_variants_spec_witness :
    (⟨0, 50, "m"⟩ : ClaimRecord) ∈ Dashboard.get_error_df [⟨0, 50, "m"⟩] :=
  get_error_df_variants_spec.2.1 [⟨0, 50, "m"⟩] ⟨0, 50, "m"⟩ (by decide)

namespace DashHelpers

/-- Python `int(round(total * 0.01, 0))`: round `total / 100` half to
even.  The float product `total * 0.01` is modelled by the exact rational
`total / 100`; the representation error of `0.01` is far below half an
ulp of the product, so the rounded value agrees for every realistic
total. -/
def pyRound001 (total : Nat) : Nat :=
  let q := total / 100
  let r := total % 100
  if 50 < r then q + 1 else if r < 50 then q else if q % 2 = 0 then q else q + 1

/-- `min_count` of the two distribution-chart functions:
`int(round(sum(distribution.values()) * 0.01, 0))`. -/
def min_count (dist : List (String × Nat)) : Nat :=
  pyRound001 ((dist.map Prod.snd).sum)

/-- The categories kept by the `v > min_count` guard common to both
pie-chart functions (`dash_helpers.py` lines 154 and 181). -/
def surviving (dist : List (String × Nat)) : List (String × Nat) :=
  dist.filter (fun kv => min_count dist < kv.2)

/-- Python `dict` update `d[k] = v`: overwrite in place when the key is
already present, else append (insertion order preserved). -/
def dictInsert (d : List (String × Nat)) (k : String) (v : Nat) :
    List (String × Nat) :=
  if d.any (fun p => p.1 == k) then
    d.map (fun p => if p.1 == k then (k, v) else p)
  else d ++ [(k, v)]

/-- The dict comprehension of `display_bno_distribution_chart`:
`{bno_codes[k]: v for k, v in bno_distribution.items() if v > min_count}`.
A missing code raises `KeyError`, modelled by `none`. -/
def bnoLoop (codes : String → Option String) (t : Nat) :
    List (String × Nat) → List (String × Nat) → Option (List (String × Nat))
  | acc, [] => some acc
  | acc, kv :: rest =>
    if t < kv.2 then
      match codes kv.1 with
      | some name => bnoLoop codes t (dictInsert acc name kv.2) rest
      | none => none
    else bnoLoop codes t acc rest

/-- `display_bno_distribution_chart`, reduced to the data it renders: the
translated, low-frequency-filtered distribution (or a raised `KeyError`). -/
def display_bno_distribution_chart (dist : List (String × Nat))
    (bno_codes : String → Option String) : Option (List (String × Nat)) :=
  bnoLoop bno_codes (min_count dist) [] dist

/-- The loop of `display_oeno_distribution_chart`: as the BNO dict
comprehension, but a `KeyError` from the code lookup is caught and the raw
code is used as the displayed key. -/
def oenoLoop (codes : String → Option String) (t : Nat) :
    List (String × Nat) → List (String × Nat) → List (String × Nat)
  | acc, [] => acc
  | acc, kv :: rest =>
    if t < kv.2 then
      match codes kv.1 with
      | some name => oenoLoop codes t (dictInsert acc name kv.2) rest
      | none => oenoLoop codes t (dictInsert acc kv.1 kv.2) rest
    else oenoLoop codes t acc rest

/-- `display_oeno_distribution_chart`, reduced to the data it renders. -/
def display_oeno_distribution_chart (dist : List (String × Nat))
    (oeno_codes : String → Option String) : List (String × Nat) :=
  oenoLoop oeno_codes (min_count dist) [] dist

/-- Translation of an already-filtered distribution with
fallback-to-raw-code on lookup misses. -/
def translateAll (codes : String → Option String)
    (kept : List (String × Nat)) : List (String × Nat) :=
  kept.foldl (fun acc kv => dictInsert acc ((codes kv.1).getD kv.1) kv.2) []

theorem oenoLoop_eq (codes : String → Option String) (t : Nat)
    (l acc : List (String × Nat)) :
    oenoLoop codes t acc l =
      (l.filter (fun kv => t < kv.2)).foldl
        (fun acc kv => dictInsert acc ((codes kv.1).getD kv.1) kv.2) acc := by
  induction l generalizing acc with
  | nil => rfl
  | cons kv rest ih =>
    simp only [oenoLoop, List.filter_cons]
    by_cases h : t < kv.2
    · simp only [h, decide_eq_true h, if_true, List.foldl_cons]
      cases hc : codes kv.1 with
      | some name => simp [hc, ih]
      | none => simp [hc, ih]
    · simp [h, ih]

theorem bnoLoop_eq_none (codes : String → Option String) (t : Nat)
    (l : List (String × Nat)) (kv : String × Nat) (hmem : kv ∈ l)
    (ht : t < kv.2) (hc : codes kv.1 = none) :
    ∀ acc, bnoLoop codes t acc l = none := by
  induction l with
  | nil => cases hmem
  | cons hd rest ih =>
    intro acc
    rcases List.mem_cons.mp hmem with rfl | hmem'
    · simp only [bnoLoop, ht, if_true, hc]
    · simp only [bnoLoop]
      by_cases hhd : t < hd.2
      · simp only [hhd, if_true]
        cases hchd : codes hd.1 with
        | some name => exact ih hmem' _
        | none => rfl
      · simp only [hhd, if_false]
        exact ih hmem' _

theorem bnoLoop_eq_some (codes : String → Option String) (t : Nat)
    (l : List (String × Nat))
    (hall : ∀ kv ∈ l, t < kv.2 → (codes kv.1).isSome) :
    ∀ acc, bnoLoop codes t acc l =
      some ((l.filter (fun kv => t < kv.2)).foldl
        (fun acc kv => dictInsert acc ((codes kv.1).getD kv.1) kv.2) acc) := by
  induction l with
  | nil => intro acc; rfl
  | cons hd rest ih =>
    intro acc
    have hrest : ∀ kv ∈ rest, t < kv.2 → (codes kv.1).isSome :=
      fun kv h => hall kv (List.mem_cons.mpr (Or.inr h))
    simp only [bnoLoop, List.filter_cons]
    by_cases h : t < hd.2
    · rcases Option.isSome_iff_exists.mp (hall hd (List.mem_cons_self hd rest) h) with
        ⟨name, hname⟩
      simp [h, hname, ih hrest]
    · simp [h, ih hrest]

/-- C5: in the low-frequency filter shared by the two pie-chart
functions, with total `T` and threshold `t = round(T * 0.01)`, a category
of count `c` is kept iff `c > t`; in particular the boundary case `c = t`
is excluded. -/
theorem low_freq_filter_spec (dist : List (String × Nat)) (k : String) (c : Nat) :
    ((k, c) ∈ surviving dist ↔
      ((k, c) ∈ dist ∧ pyRound001 ((dist.map Prod.snd).sum) < c)) ∧
    (c = pyRound001 ((dist.map Prod.snd).sum) → (k, c) ∉ surviving dist) := by
  constructor
  · rw [surviving, List.mem_filter]
    simp [min_count]
  · intro hc hmem
    rcases List.mem_filter.mp hmem with ⟨-, hlt⟩
    rw [min_count, ← hc] at hlt
    exact lt_irrefl c (of_decide_eq_true hlt)

/-- Witness for C5: with counts `[99, 1]` the total is 100, the threshold
is 1, and the boundary category of count exactly 1 is dropped. -/
theorem low_freq_filter_spec_witness :
    ("b", 1) ∉ surviving [("a", 99), ("b", 1)] :=
  (low_freq_filter_spec [("a", 99), ("b", 1)] "b" 1).2 (by decide)

/-- C8 counterexample: with the single surviving category `"X"` missing
from the lookup table, the BNO path raises (returns `none`) instead of
displaying the raw code, while the OENO path does fall back to `"X"`. -/
theorem bno_lookup_miss_cex :
    display_bno_distribution_chart [("X", 10)] (fun _ => none) = none ∧
    display_oeno_distribution_chart [("X", 10)] (fun _ => none) = [("X", 10)] := by
  constructor <;> rfl

/-- C8 (amended): only the OENO path degrades gracefully — every
surviving category whose code is missing is displayed under its raw code;
the BNO path raises `KeyError` (returns `none`) as soon as any surviving
category's code is missing, and renders only when every surviving
category's code is present. -/
theorem code_lookup_fallback_spec (dist : List (String × Nat))
    (codes : String → Option String) :
    display_oeno_distribution_chart dist codes =
      translateAll codes (surviving dist) ∧
    ((∀ kv ∈ surviving dist, (codes kv.1).isSome) →
      display_bno_distribution_chart dist codes =
        some (translateAll codes (surviving dist))) ∧
    (∀ kv ∈ surviving dist, codes kv.1 = none →
      display_bno_distribution_chart dist codes = none) := by
  refine ⟨oenoLoop_eq codes (min_count dist) dist [], ?_, ?_⟩
  · intro hall
    have hall' : ∀ kv ∈ dist, min_count dist < kv.2 → (codes kv.1).isSome := by
      intro kv hkv hlt
      exact hall kv (List.mem_filter.mpr ⟨hkv, decide_eq_true hlt⟩)
    exact bnoLoop_eq_some codes (min_count dist) dist hall' []
  · intro kv hkv hc
    rcases List.mem_filter.mp hkv with ⟨hmem, hlt⟩
    exact bnoLoop_eq_none codes (min_count dist) dist kv hmem
      (of_decide_eq_true hlt) hc []

/-- Witness for C8 (amended) at a concrete distribution whose surviving
category has a code: the BNO path renders the translated name. -/
theorem code_lookup_fallback_spec_witness :
    display_bno_distribution_chart [("X", 10)]
      (fun k => if k = "X" then some "Name" else none) = some [("Name", 10)] :=
  ((code_lookup_fallback_spec [("X", 10)]
      (fun k => if k = "X" then some "Name" else none)).2.1 (by decide)).trans
    (by rfl)

end DashHelpers

/-- The ordering produced by the top-N extraction: strictly greater count
first; on equal counts, the original (ascending category-key) order
`keyR`. -/
def rankedBefore (keyR : String → String → Prop) (a b : String × Nat) : Prop :=
  b.2 < a.2 ∨ (a.2 = b.2 ∧ keyR a.1 b.1)

/-- `dashboard.py` / `dash_helpers.py` top-3 age groups:
`sorted(age_group_distribution.items(), key=lambda x: x[1], reverse=True)[:3]`.
Python's `sorted` with `reverse=True` is a stable descending sort, modelled
by `sortBy` with the reflexive descending comparison. -/
def top_ages (dist : List (String × Nat)) : List (String × Nat) :=
  (sortBy (fun a b => decide (b.2 ≤ a.2)) dist).take 3

theorem insertBy_rankedBefore {keyR : String → String → Prop}
    {x : String × Nat} {l : List (String × Nat)}
    (hl : l.Pairwise (rankedBefore keyR))
    (hx : ∀ y ∈ l, x.2 = y.2 → keyR x.1 y.1) :
    (insertBy (fun a b => decide (b.2 ≤ a.2)) x l).Pairwise (rankedBefore keyR) := by
  induction l with
  | nil => simp [insertBy, List.pairwise_cons]
  | cons y ys ih =>
    rcases List.pairwise_cons.mp hl with ⟨hy, hys⟩
    simp only [insertBy]
    by_cases h : y.2 ≤ x.2
    · simp only [decide_eq_true h, if_true]
      refine List.pairwise_cons.mpr ⟨?_, hl⟩
      intro z hz
      rcases List.mem_cons.mp hz with rfl | hz
      · rcases lt_or_eq_of_le h with hlt | heq
        · exact Or.inl hlt
        · exact Or.inr ⟨heq.symm, hx z (List.mem_cons_self z ys) heq.symm⟩
      · rcases hy z hz with hlt | ⟨heq, -⟩
        · exact Or.inl (lt_of_lt_of_le hlt h)
        · rcases lt_or_eq_of_le h with hlt2 | heq2
          · exact Or.inl (heq ▸ hlt2)
          · exact Or.inr ⟨heq2.symm.trans heq,
              hx z (List.mem_cons.mpr (Or.inr hz)) (heq2.symm.trans heq)⟩
    · have hxy : x.2 < y.2 := lt_of_not_le h
      simp only [decide_eq_false h, if_false]
      refine List.pairwise_cons.mpr ⟨?_, ih hys ?_⟩
      · intro z hz
        rcases mem_insertBy.mp hz with rfl | hz
        · exact Or.inl hxy
        · exact hy z hz
      · intro z hz hzz
        exact hx z (List.mem_cons.mpr (Or.inr hz)) hzz

theorem sortBy_rankedBefore {keyR : String → String → Prop}
    {l : List (String × Nat)} (hl : l.Pairwise (fun a b => keyR a.1 b.1)) :
    (sortBy (fun a b => decide (b.2 ≤ a.2)) l).Pairwise (rankedBefore keyR) := by
  induction l with
  | nil => simp [sortBy]
  | cons x xs ih =>
    rcases List.pairwise_cons.mp hl with ⟨hx, hxs⟩
    refine insertBy_rankedBefore (ih hxs) ?_
    intro y hy _
    exact hx y ((sortBy_perm _ xs).mem_iff.mp hy)

/-- C6: top-N extraction (`[:3]` after the stable descending sort by
count) returns items of the distribution sorted by count descending, ties
broken by the original ascending-key order, and the result has length at
most 3. -/
theorem top_ages_spec {keyR : String → String → Prop}
    (dist : List (String × Nat))
    (hkeys : dist.Pairwise (fun a b => keyR a.1 b.1)) :
    (top_ages dist).length ≤ 3 ∧
    (top_ages dist).Pairwise (rankedBefore keyR) ∧
    ∀ x ∈ top_ages dist, x ∈ dist := by
  refine ⟨?_, ?_, ?_⟩
  · rw [top_ages, List.length_take]
    exact min_le_left _ _
  · exact List.Pairwise.sublist (List.take_sublist 3 _) (sortBy_rankedBefore hkeys)
  · intro x hx
    exact (sortBy_perm _ dist).mem_iff.mp (List.take_subset 3 _ hx)

/-- Witness for C6 at a concrete two-bin distribution. -/
theorem top_ages_spec_witness :
    (top_ages [("15-19", 2), ("20-24", 5)]).length ≤ 3 :=
  (@top_ages_spec (fun _ _ => True) [("15-19", 2), ("20-24", 5)]
    (by simp [List.pairwise_cons])).1

namespace Report

/-- `report.py` `add_age_column`:
`((datetime.now() - ef_df[dob]).dt.days / 365.25).astype(int)`, per
record.  `nowDays − dob` is the day difference `.dt.days`; the float
division by `365.25` is the exact rational `d * 4 / 1461` (see the header
note) and `astype(int)` truncates toward zero (`Int.tdiv`).  The
wall-clock "now" of the source is the explicit `nowDays` parameter. -/
def add_age_column (nowDays : Int) (dobDays : List Int) : List Int :=
  dobDays.map (fun dob => Int.tdiv ((nowDays - dob) * 4) 1461)

/-- C3 counterexample: for a birth date one day after "now" the code
yields `0` (truncation toward zero), not the floor `-1` demanded by the
claim, so the derived age is not `floor((now − dob) / 365.25)` for every
parseable birth date. -/
theorem add_age_column_floor_cex :
    add_age_column 0 [1] ≠ [Int.fdiv ((0 - 1) * 4) 1461] := by decide

/-- C3 (amended): for every record whose birth date is not after the
report-generation time `nowDays` — an arbitrary parameter, so the
computation indeed uses the run's wall clock and no fixed reference date —
the derived age equals `floor((now − dob) / 365.25)`; in general the code
truncates toward zero rather than flooring. -/
theorem add_age_column_spec (nowDays : Int) (dobDays : List Int)
    (h : ∀ dob ∈ dobDays, dob ≤ nowDays) :
    add_age_column nowDays dobDays =
      dobDays.map (fun dob => Int.fdiv ((nowDays - dob) * 4) 1461) := by
  rw [add_age_column]
  refine List.map_congr_left ?_
  intro dob hdob
  have hnn : 0 ≤ (nowDays - dob) * 4 := by
    have := h dob hdob
    nlinarith
  rw [Int.tdiv_eq_ediv hnn (by norm_num), Int.fdiv_eq_ediv _ (by norm_num)]

/-- Witness for C3 (amended) at a birth date 7305 days (exactly 20 julian
years) before "now". -/
theorem add_age_column_spec_witness :
    add_age_column 7305 [0] = [0, 1, 2].map (fun dob => Int.fdiv ((7305 - dob) * 4) 1461) ∨
    add_age_column 7305 [0] = [0].map (fun dob => Int.fdiv ((7305 - dob) * 4) 1461) :=
  Or.inr (add_age_column_spec 7305 [0] (by decide))

/-- `start_bin` of `add_age_bins`: `(min_age // bin_size) * bin_size`. -/
def startBin (mn W : Int) : Int := mn.fdiv W * W

/-- `end_bin` of `add_age_bins`: `((max_age // bin_size) + 1) * bin_size`. -/
def endBin (mx W : Int) : Int := (mx.fdiv W + 1) * W

/-- Python `range(start, stop, step)` for positive `step`:
`start + step * i` for `i < ceil((stop - start) / step)`. -/
def pyRange (start stop step : Int) : List Int :=
  (List.range ((stop - start + step - 1).fdiv step).toNat).map
    (fun i : Nat => start + step * (i : Int))

/-- The bin edges of `add_age_bins`:
`list(range(start_bin, end_bin + 1, bin_size))`. -/
def binEdges (mn mx W : Int) : List Int :=
  pyRange (startBin mn W) (endBin mx W + 1) W

/-- A bin label: `f"{b}-{b + bin_size - 1}"`. -/
def binLabel (W lo : Int) : String :=
  toString lo ++ "-" ++ toString (lo + W - 1)

/-- The label list of `add_age_bins`: one label per edge except the last
(`bins[:-1]`). -/
def binLabels (mn mx W : Int) : List String :=
  (binEdges mn mx W).dropLast.map (binLabel W)

/-- Membership of a value in interval `i` of `pd.cut(..., right=True,
include_lowest=True)`: `(edges[i], edges[i+1]]`, with the lowest edge
included for the first interval. -/
def inInterval (edges : List Int) (i : Nat) (a : Int) : Bool :=
  match edges[i]?, edges[i + 1]? with
  | some lo, some hi =>
    (if i = 0 then decide (lo ≤ a) else decide (lo < a)) && decide (a ≤ hi)
  | _, _ => false

/-- `pd.cut` of a single value: the label of the interval containing it
(the intervals are pairwise disjoint, so the first match is the match),
`none` (`NaN`) when no interval contains it. -/
def pdCut (edges : List Int) (labels : List String) (a : Int) : Option String :=
  ((List.range (edges.length - 1)).find? (fun i => inInterval edges i a)).bind
    (fun i => labels[i]?)

/-- `report.py` `add_age_bins`: bin edges and labels computed from the
observed minimum/maximum age, each age assigned by `pd.cut`.  On an empty
age column the minimum is undefined and the source fails (`none`). -/
def add_age_bins (ages : List Int) (W : Int) : Option (List (Option String)) :=
  match ages.min?, ages.max? with
  | some mn, some mx =>
    some (ages.map (pdCut (binEdges mn mx W) (binLabels mn mx W)))
  | _, _ => none

theorem fdiv_mono_of_le {a b W : Int} (hW : 0 < W) (h : a ≤ b) :
    a.fdiv W ≤ b.fdiv W := by
  rw [Int.fdiv_eq_ediv _ (le_of_lt hW), Int.fdiv_eq_ediv _ (le_of_lt hW)]
  exact Int.ediv_le_ediv hW h

theorem binEdges_length {mn mx W : Int} (hW : 0 < W) (hle : mn ≤ mx) :
    (binEdges mn mx W).length = (mx.fdiv W - mn.fdiv W).toNat + 2 := by
  have harg : endBin mx W + 1 - startBin mn W + W - 1 =
      (mx.fdiv W - mn.fdiv W + 2) * W := by
    rw [startBin, endBin]; ring
  have hD : 0 ≤ mx.fdiv W - mn.fdiv W := by
    have := fdiv_mono_of_le hW hle
    omega
  rw [binEdges, pyRange, List.length_map, List.length_range, harg,
    Int.mul_fdiv_cancel _ (ne_of_gt hW)]
  omega

theorem binEdges_getElem {mn mx W : Int} {i : Nat}
    (hi : i < (binEdges mn mx W).length) :
    (binEdges mn mx W)[i]? = some (startBin mn W + W * i) := by
  have hi' : i < ((endBin mx W + 1 - startBin mn W + W - 1).fdiv W).toNat := by
    simpa [binEdges, pyRange, List.length_map, List.length_range] using hi
  rw [binEdges, pyRange, List.getElem?_map, List.getElem?_range hi']
  rfl

end Report

namespace Report

theorem inInterval_iff {mn mx W : Int} (hW : 0 < W) (hle : mn ≤ mx)
    (i : Nat) (a : Int) :
    inInterval (binEdges mn mx W) i a = true ↔
      (i + 1 < (binEdges mn mx W).length ∧
        (if i = 0 then startBin mn W ≤ a else startBin mn W + W * (i : Int) < a) ∧
        a ≤ startBin mn W + W * ((i : Int) + 1)) := by
  by_cases hi : i + 1 < (binEdges mn mx W).length
  · have hi0 : i < (binEdges mn mx W).length := Nat.lt_of_succ_lt hi
    simp only [inInterval, binEdges_getElem hi0, binEdges_getElem hi]
    constructor
    · intro h
      simp only [Bool.and_eq_true] at h
      rcases h with ⟨h1, h2⟩
      have hb : a ≤ startBin mn W + W * ((i : Int) + 1) := by
        have := of_decide_eq_true h2
        push_cast at this
        linarith
      refine ⟨hi, ?_, hb⟩
      by_cases h0 : i = 0
      · subst h0
        rw [if_pos rfl] at h1 ⊢
        have := of_decide_eq_true h1
        push_cast at this
        linarith
      · rw [if_neg h0] at h1 ⊢
        exact of_decide_eq_true h1
    · rintro ⟨-, ha, hb⟩
      simp only [Bool.and_eq_true]
      refine ⟨?_, ?_⟩
      · by_cases h0 : i = 0
        · subst h0
          rw [if_pos rfl] at ha ⊢
          refine decide_eq_true ?_
          push_cast
          linarith
        · rw [if_neg h0] at ha ⊢
          exact decide_eq_true ha
      · refine decide_eq_true ?_
        push_cast
        linarith
  · have h2 : (binEdges mn mx W)[i + 1]? = none :=
      List.getElem?_eq_none (Nat.le_of_not_lt hi)
    cases h1 : (binEdges mn mx W)[i]? with
    | none => simp [inInterval, h1, h2, hi]
    | some lo => simp [inInterval, h1, h2, hi]

theorem binEdges_coverage {mn mx W : Int} (hW : 0 < W) (hle : mn ≤ mx)
    {x : Int} (hx1 : startBin mn W ≤ x) (hx2 : x < endBin mx W) :
    ∃ i : Nat, inInterval (binEdges mn mx W) i x = true := by
  have hD0 : 0 ≤ mx.fdiv W - mn.fdiv W := by
    have := fdiv_mono_of_le hW hle
    omega
  have hlen : (binEdges mn mx W).length = (mx.fdiv W - mn.fdiv W).toNat + 2 :=
    binEdges_length hW hle
  have hspan : endBin mx W = startBin mn W + (mx.fdiv W - mn.fdiv W + 1) * W := by
    rw [startBin, endBin]; ring
  by_cases hx0 : x = startBin mn W
  · refine ⟨0, (inInterval_iff hW hle 0 x).mpr ⟨by omega, ?_, ?_⟩⟩
    · simpa using hx1
    · push_cast
      rw [hx0]
      linarith
  · have hgt : startBin mn W < x := lt_of_le_of_ne hx1 (Ne.symm hx0)
    have hq0 : 0 ≤ (x - startBin mn W - 1).fdiv W :=
      Int.fdiv_nonneg (by omega) (le_of_lt hW)
    have hup : x - startBin mn W - 1 < ((x - startBin mn W - 1).fdiv W + 1) * W := by
      rw [Int.fdiv_eq_ediv _ (le_of_lt hW)]
      exact Int.lt_ediv_add_one_mul_self _ hW
    have hlow : (x - startBin mn W - 1).fdiv W * W ≤ x - startBin mn W - 1 := by
      rw [Int.fdiv_eq_ediv _ (le_of_lt hW)]
      exact Int.ediv_mul_le _ (ne_of_gt hW)
    have hqD : (x - startBin mn W - 1).fdiv W ≤ mx.fdiv W - mn.fdiv W := by
      have h1 : x - startBin mn W - 1 < (mx.fdiv W - mn.fdiv W + 1) * W := by
        rw [hspan] at hx2
        linarith
      have h2 : (x - startBin mn W - 1).fdiv W < mx.fdiv W - mn.fdiv W + 1 := by
        rw [Int.fdiv_eq_ediv _ (le_of_lt hW), Int.ediv_lt_iff_lt_mul hW]
        linarith
      omega
    have hcast : (((x - startBin mn W - 1).fdiv W).toNat : Int) =
        (x - startBin mn W - 1).fdiv W := Int.toNat_of_nonneg hq0
    refine ⟨((x - startBin mn W - 1).fdiv W).toNat,
      (inInterval_iff hW hle _ x).mpr ⟨by omega, ?_, ?_⟩⟩
    · by_cases hz : ((x - startBin mn W - 1).fdiv W).toNat = 0
      · rw [if_pos hz]
        exact hx1
      · rw [if_neg hz, hcast]
        have : (x - startBin mn W - 1).fdiv W * W ≤ x - startBin mn W - 1 := hlow
        nlinarith [this]
    · rw [hcast]
      nlinarith [hup]

theorem binEdges_unique {mn mx W : Int} (hW : 0 < W) (hle : mn ≤ mx)
    {a : Int} {i j : Nat}
    (hi : inInterval (binEdges mn mx W) i a = true)
    (hj : inInterval (binEdges mn mx W) j a = true) : i = j := by
  have key : ∀ {i j : Nat}, i < j →
      inInterval (binEdges mn mx W) i a = true →
      inInterval (binEdges mn mx W) j a = true → False := by
    intro i j hij hi hj
    obtain ⟨-, -, hup⟩ := (inInterval_iff hW hle i a).mp hi
    obtain ⟨-, hlo, -⟩ := (inInterval_iff hW hle j a).mp hj
    rw [if_neg (by omega : ¬ j = 0)] at hlo
    have hmono : W * ((i : Int) + 1) ≤ W * (j : Int) := by
      have hc : ((i : Int) + 1) ≤ (j : Int) := by exact_mod_cast hij
      exact mul_le_mul_of_nonneg_left hc (le_of_lt hW)
    linarith
  rcases lt_trichotomy i j with h | h | h
  · exact (key h hi hj).elim
  · exact h
  · exact (key h hj hi).elim

theorem pdCut_eq_of_inInterval {mn mx W : Int} (hW : 0 < W) (hle : mn ≤ mx)
    {a : Int} {i : Nat}
    (hi : inInterval (binEdges mn mx W) i a = true) :
    pdCut (binEdges mn mx W) (binLabels mn mx W) a =
      some (binLabel W (startBin mn W + W * i)) := by
  obtain ⟨hib, -, -⟩ := (inInterval_iff hW hle i a).mp hi
  have hsome : ((List.range ((binEdges mn mx W).length - 1)).find?
      (fun k => inInterval (binEdges mn mx W) k a)).isSome := by
    rw [List.find?_isSome]
    exact ⟨i, List.mem_range.mpr (by omega), hi⟩
  obtain ⟨j, hjfind⟩ := Option.isSome_iff_exists.mp hsome
  have hj : inInterval (binEdges mn mx W) j a = true := by
    have := List.find?_some hjfind
    simpa using this
  have hji : j = i := binEdges_unique hW hle hj hi
  rw [pdCut, hjfind, hji, Option.some_bind, binLabels, List.getElem?_map,
    List.getElem?_dropLast, if_pos (by omega : i < (binEdges mn mx W).length - 1),
    binEdges_getElem (by omega)]
  rfl

theorem min?_le_of_mem {l : List Int} {mn a : Int}
    (hmn : l.min? = some mn) (ha : a ∈ l) : mn ≤ a :=
  (List.le_min?_iff (fun _ _ _ => le_min_iff) hmn).mp (le_refl mn) a ha

theorem le_max?_of_mem {l : List Int} {mx a : Int}
    (hmx : l.max? = some mx) (ha : a ∈ l) : a ≤ mx :=
  (List.max?_le_iff (fun _ _ _ => max_le_iff) hmx).mp (le_refl mx) a ha

theorem min?_le_max? {l : List Int} {mn mx : Int}
    (hmn : l.min? = some mn) (hmx : l.max? = some mx) : mn ≤ mx :=
  min?_le_of_mem hmn (List.max?_mem max_choice hmx)

theorem age_in_range {W : Int} (hW : 0 < W) {l : List Int} {mn mx a : Int}
    (hmn : l.min? = some mn) (hmx : l.max? = some mx) (ha : a ∈ l) :
    startBin mn W ≤ a ∧ a < endBin mx W := by
  have h1 : mn ≤ a := min?_le_of_mem hmn ha
  have h2 : a ≤ mx := le_max?_of_mem hmx ha
  constructor
  · have hs : mn.fdiv W * W ≤ mn := by
      rw [Int.fdiv_eq_ediv _ (le_of_lt hW)]
      exact Int.ediv_mul_le mn (ne_of_gt hW)
    rw [startBin]
    linarith
  · have he : mx < (mx.fdiv W + 1) * W := by
      rw [Int.fdiv_eq_ediv _ (le_of_lt hW)]
      exact Int.lt_ediv_add_one_mul_self mx hW
    rw [endBin]
    linarith

end Report

namespace Report

/-- C4: for every table with at least one age (ages are always non-null
in the pipeline, as `astype(int)` forces a parsed value), the bins of
`add_age_bins` are fixed-width (consecutive edges differ by exactly the
bin width), non-overlapping and sorted, their union covers
`[start_bin, end_bin)` with no gaps, and every age of the table lies in
exactly one bin and receives its label. -/
theorem add_age_bins_partition (ages : List Int) (W : Int) (hW : 0 < W)
    (hne : ages ≠ []) :
    ∃ mn mx : Int, ages.min? = some mn ∧ ages.max? = some mx ∧
      (∀ i : Nat, i + 1 < (binEdges mn mx W).length →
        ∃ lo hi : Int, (binEdges mn mx W)[i]? = some lo ∧
          (binEdges mn mx W)[i + 1]? = some hi ∧ hi = lo + W) ∧
      (∀ x : Int, startBin mn W ≤ x → x < endBin mx W →
        ∃ i : Nat, inInterval (binEdges mn mx W) i x = true) ∧
      (∀ a ∈ ages, ∃ i : Nat, inInterval (binEdges mn mx W) i a = true ∧
        (∀ j : Nat, inInterval (binEdges mn mx W) j a = true → j = i) ∧
        pdCut (binEdges mn mx W) (binLabels mn mx W) a =
          some (binLabel W (startBin mn W + W * i))) := by
  obtain ⟨mn, hmn⟩ : ∃ mn, ages.min? = some mn := by
    cases h : ages.min? with
    | none => exact absurd (List.min?_eq_none_iff.mp h) hne
    | some mn => exact ⟨mn, rfl⟩
  obtain ⟨mx, hmx⟩ : ∃ mx, ages.max? = some mx := by
    cases h : ages.max? with
    | none => exact absurd (List.max?_eq_none_iff.mp h) hne
    | some mx => exact ⟨mx, rfl⟩
  have hle : mn ≤ mx := min?_le_max? hmn hmx
  refine ⟨mn, mx, hmn, hmx, ?_, ?_, ?_⟩
  · intro i hi
    refine ⟨startBin mn W + W * i, startBin mn W + W * (i + 1 : Nat),
      binEdges_getElem (Nat.lt_of_succ_lt hi), binEdges_getElem hi, ?_⟩
    push_cast
    ring
  · intro x hx1 hx2
    exact binEdges_coverage hW hle hx1 hx2
  · intro a ha
    obtain ⟨h1, h2⟩ := age_in_range hW hmn hmx ha
    obtain ⟨i, hi⟩ := binEdges_coverage hW hle h1 h2
    exact ⟨i, hi, fun j hj => binEdges_unique hW hle hj hi,
      pdCut_eq_of_inInterval hW hle hi⟩

/-- Witness for C4 at the scenario table of ages `[18, 19, 23, 24, 31]`
with the default bin width 5. -/
theorem add_age_bins_partition_witness :
    ∃ mn mx : Int, ([18, 19, 23, 24, 31] : List Int).min? = some mn ∧
      ([18, 19, 23, 24, 31] : List Int).max? = some mx ∧
      (∀ i : Nat, i + 1 < (binEdges mn mx 5).length →
        ∃ lo hi : Int, (binEdges mn mx 5)[i]? = some lo ∧
          (binEdges mn mx 5)[i + 1]? = some hi ∧ hi = lo + 5) ∧
      (∀ x : Int, startBin mn 5 ≤ x → x < endBin mx 5 →
        ∃ i : Nat, inInterval (binEdges mn mx 5) i x = true) ∧
      (∀ a ∈ ([18, 19, 23, 24, 31] : List Int), ∃ i : Nat,
        inInterval (binEdges mn mx 5) i a = true ∧
        (∀ j : Nat, inInterval (binEdges mn mx 5) j a = true → j = i) ∧
        pdCut (binEdges mn mx 5) (binLabels mn mx 5) a =
          some (binLabel 5 (startBin mn 5 + 5 * i))) :=
  add_age_bins_partition [18, 19, 23, 24, 31] 5 (by decide) (by decide)

/-- C2: with at least one age and bin width `W > 0`, `add_age_bins`
computes `start = (min_age // W) * W` and `end = ((max_age // W) + 1) * W`,
generates the edges `start, start + W, …, end` inclusive, labels interval
`i` as `"{edge}-{edge + W - 1}"` from its lower edge `start + W * i`,
assigns every age to the half-open interval `(edge[i], edge[i+1]]` with
the lowest edge inclusive, and on the scenario ages `[18, 19, 23, 24, 31]`
with `W = 5` produces the labels
`"15-19", "15-19", "20-24", "20-24", "30-34"`. -/
theorem add_age_bins_spec (ages : List Int) (W : Int) (hW : 0 < W)
    {mn mx : Int} (hmn : ages.min? = some mn) (hmx : ages.max? = some mx) :
    (binEdges mn mx W).length = (mx.fdiv W - mn.fdiv W).toNat + 2 ∧
    (∀ i : Nat, i < (binEdges mn mx W).length →
      (binEdges mn mx W)[i]? = some (mn.fdiv W * W + W * i)) ∧
    (binEdges mn mx W).getLast? = some ((mx.fdiv W + 1) * W) ∧
    (∀ i : Nat, i < (binLabels mn mx W).length →
      (binLabels mn mx W)[i]? = some (binLabel W (mn.fdiv W * W + W * i))) ∧
    add_age_bins ages W =
      some (ages.map (pdCut (binEdges mn mx W) (binLabels mn mx W))) ∧
    (∀ a ∈ ages, ∃ i : Nat,
      pdCut (binEdges mn mx W) (binLabels mn mx W) a =
        some (binLabel W (mn.fdiv W * W + W * i)) ∧
      (if i = 0 then mn.fdiv W * W ≤ a else mn.fdiv W * W + W * (i : Int) < a) ∧
      a ≤ mn.fdiv W * W + W * ((i : Int) + 1)) ∧
    add_age_bins [18, 19, 23, 24, 31] 5 =
      some [some "15-19", some "15-19", some "20-24", some "20-24", some "30-34"] := by
  have hle : mn ≤ mx := min?_le_max? hmn hmx
  have hlab : ∀ i : Nat, i < (binLabels mn mx W).length →
      (binLabels mn mx W)[i]? = some (binLabel W (mn.fdiv W * W + W * i)) := by
    intro i hi
    have hi' : i < (binEdges mn mx W).length - 1 := by
      have := hi
      rw [binLabels, List.length_map, List.length_dropLast] at this
      omega
    rw [binLabels, List.getElem?_map, List.getElem?_dropLast, if_pos hi',
      binEdges_getElem (by omega)]
    rfl
  refine ⟨binEdges_length hW hle, fun i hi => binEdges_getElem hi, ?_, hlab, ?_, ?_, by decide⟩
  · have hlen : (binEdges mn mx W).length = (mx.fdiv W - mn.fdiv W).toNat + 2 :=
      binEdges_length hW hle
    have hD0 : 0 ≤ mx.fdiv W - mn.fdiv W := by
      have := fdiv_mono_of_le hW hle
      omega
    rw [List.getLast?_eq_getElem?, binEdges_getElem (by omega)]
    have hcast : (((binEdges mn mx W).length - 1 : Nat) : Int) =
        mx.fdiv W - mn.fdiv W + 1 := by
      rw [hlen]
      push_cast
      omega
    rw [hcast]
    have h2 : startBin mn W + W * (mx.fdiv W - mn.fdiv W + 1) = (mx.fdiv W + 1) * W := by
      rw [startBin]
      ring
    rw [h2]
  · rw [add_age_bins, hmn, hmx]
  · intro a ha
    obtain ⟨h1, h2⟩ := age_in_range hW hmn hmx ha
    obtain ⟨i, hi⟩ := binEdges_coverage hW hle h1 h2
    obtain ⟨-, hcond, hup⟩ := (inInterval_iff hW hle i a).mp hi
    refine ⟨i, ?_, ?_, ?_⟩
    · have := pdCut_eq_of_inInterval hW hle hi
      rwa [startBin] at this
    · rwa [startBin] at hcond
    · rwa [startBin] at hup

/-- Witness for C2 at the scenario table: ages `[18, 19, 23, 24, 31]`,
bin width 5. -/
theorem add_age_bins_spec_witness :
    (binEdges 18 31 5).length = ((31 : Int).fdiv 5 - (18 : Int).fdiv 5).toNat + 2 :=
  (add_age_bins_spec [18, 19, 23, 24, 31] 5 (by decide) (by decide) (by decide)).1

end Report

namespace Report

/-- `report.py` `get_distribution` on an ordinary (non-categorical)
column: `value_counts().sort_index().to_dict()` — the distinct non-null
values of the column, each with its occurrence count, ordered ascending
by the column's order `le`.  (`value_counts` drops nulls and counts by
exact equality; `sort_index` orders by key, not by count.) -/
def get_distribution {K : Type} [DecidableEq K] (vals : List (Option K))
    (le : K → K → Bool) : List (K × Nat) :=
  (sortBy le (vals.filterMap id).dedup).map
    (fun k => (k, (vals.filterMap id).count k))

/-- `get_distribution` on an ordered categorical column (the age-bin
column built by `pd.cut(..., ordered=True)`): pandas `value_counts`
returns a count for every declared category — zero included — and
`sort_index` orders by the declared category order, so the result is the
category list in order, each with its count. -/
def get_distribution_cat (vals : List (Option String))
    (categories : List String) : List (String × Nat) :=
  categories.map (fun k => (k, (vals.filterMap id).count k))

/-- C7: `get_distribution` groups by exact value equality (a pair
`(k, c)` is in the result iff `k` occurs in the column and `c` is its
occurrence count), is ordered ascending by the column's key order, and
its counts sum to the number of non-null entries of the column. -/
theorem get_distribution_spec {K : Type} [DecidableEq K]
    (vals : List (Option K)) (le : K → K → Bool)
    (htot : ∀ a b, le a b = true ∨ le b a = true)
    (htrans : ∀ a b c, le a b = true → le b c = true → le a c = true) :
    (∀ (k : K) (c : Nat), (k, c) ∈ get_distribution vals le ↔
      (k ∈ vals.filterMap id ∧ c = (vals.filterMap id).count k)) ∧
    ((get_distribution vals le).map Prod.fst).Pairwise
      (fun a b => le a b = true) ∧
    ((get_distribution vals le).map Prod.snd).sum =
      (vals.filterMap id).length := by
  refine ⟨?_, ?_, ?_⟩
  · intro k c
    constructor
    · intro h
      rcases List.mem_map.mp h with ⟨k', hk', heq⟩
      rcases Prod.mk.injEq .. ▸ heq with ⟨rfl, rfl⟩
      have : k' ∈ (vals.filterMap id).dedup :=
        (sortBy_perm le _).mem_iff.mp hk'
      exact ⟨List.mem_dedup.mp this, rfl⟩
    · rintro ⟨hk, rfl⟩
      refine List.mem_map.mpr ⟨k, ?_, rfl⟩
      exact (sortBy_perm le _).mem_iff.mpr (List.mem_dedup.mpr hk)
  · rw [get_distribution, List.map_map]
    have hcomp : (Prod.fst ∘ fun k : K => (k, (vals.filterMap id).count k)) =
        fun k : K => k := rfl
    rw [hcomp]
    have hid : (sortBy le (vals.filterMap id).dedup).map (fun k : K => k) =
        sortBy le (vals.filterMap id).dedup := List.map_id _
    rw [hid]
    exact sortBy_pairwise htot htrans _
  · rw [get_distribution, List.map_map]
    have hcomp : (Prod.snd ∘ fun k : K => (k, (vals.filterMap id).count k)) =
        fun k : K => (vals.filterMap id).count k := rfl
    rw [hcomp]
    have hperm := (sortBy_perm le (vals.filterMap id).dedup).map
      (fun k : K => (vals.filterMap id).count k)
    rw [hperm.sum_eq]
    exact List.sum_map_count_dedup_eq_length _

/-- Witness for C7 on a concrete column with a null entry: the counts sum
to the number of non-null rows. -/
theorem get_distribution_spec_witness :
    ((get_distribution [some 3, none, some 3, some 5]
        (fun a b : Nat => decide (a ≤ b))).map Prod.snd).sum =
      (([some 3, none, some 3, some 5] : List (Option Nat)).filterMap id).length :=
  (get_distribution_spec [some 3, none, some 3, some 5]
    (fun a b : Nat => decide (a ≤ b))
    (fun a b => (Nat.le_total a b).imp decide_eq_true decide_eq_true)
    (fun _ _ _ hab hbc =>
      decide_eq_true (Nat.le_trans (of_decide_eq_true hab) (of_decide_eq_true hbc)))).2.2

/-- C10: on the ordered categorical age-bin column the distribution has a
key for every generated bin label — empty bins appear with count 0
(witnessed on the scenario column, where "25-29" is present with count 0)
— while on an ordinary column a value occurs as a key iff it occurs in
the column, and every listed count is positive (zero-count values are
absent). -/
theorem get_distribution_categorical_spec :
    (∀ (vals : List (Option String)) (cats : List String),
      (get_distribution_cat vals cats).map Prod.fst = cats) ∧
    (∃ col, add_age_bins [18, 19, 23, 24, 31] 5 = some col ∧
      get_distribution_cat col (binLabels 18 31 5) =
        [("15-19", 2), ("20-24", 2), ("25-29", 0), ("30-34", 1)]) ∧
    (∀ {K : Type} [DecidableEq K] (vals : List (Option K))
      (le : K → K → Bool) (k : K) (c : Nat),
      (k, c) ∈ get_distribution vals le → k ∈ vals.filterMap id ∧ 0 < c) := by
  refine ⟨?_, ?_, ?_⟩
  · intro vals cats
    rw [get_distribution_cat, List.map_map]
    have hcomp : (Prod.fst ∘ fun k : String => (k, (vals.filterMap id).count k)) =
        fun k : String => k := rfl
    rw [hcomp]
    exact List.map_id _
  · exact ⟨[some "15-19", some "15-19", some "20-24", some "20-24", some "30-34"],
      by decide, by decide⟩
  · intro K _ vals le k c h
    rcases List.mem_map.mp h with ⟨k', hk', heq⟩
    rcases Prod.mk.injEq .. ▸ heq with ⟨rfl, rfl⟩
    have hmem : k' ∈ vals.filterMap id :=
      List.mem_dedup.mp ((sortBy_perm le _).mem_iff.mp hk')
    exact ⟨hmem, List.count_pos_iff.mpr hmem⟩

/-- Witness for C10 on a concrete ordinary column: a key of the
distribution occurs in the column and has positive count. -/
theorem get_distribution_categorical_spec_witness :
    (3 : Nat) ∈ ([some 3, none, some 3] : List (Option Nat)).filterMap id ∧ 0 < 2 :=
  get_distribution_categorical_spec.2.2 [some 3, none, some 3]
    (fun a b : Nat => decide (a ≤ b)) 3 2 (by decide)

end Report
